import Mathlib

/-!
Shallow embedding of the bounded fair request scheduler of
`simple-board/src/lib/supabase.ts` (class `RequestQueueManager`), together
with the like/check helpers `_internalLikeContentItem` and `checkIfLiked`.

The scheduler is stateful asynchronous JavaScript running on a
single-threaded event loop.  We embed it as a labelled transition system:
each transition is one synchronous block of the source (a block runs
atomically on the event loop).  The state carries the source's fields
(`queue`, `processing`) plus history ("ghost") fields that record what the
source does through its environment: `running` (ids of admitted,
still-executing operations), `started` (admission order), `settled` (every
call to a request's `resolve`/`reject`, in order, with which outcome),
`tasks` (pending `setTimeout(processQueue, 0)` macrotasks), `nextId`
(fresh-id supply standing for the unique string ids) and `clock`
(the value of `Date.now()`).  A request's timeout timer is armed exactly
while the request sits in `queue`: the source clears the timer at every
point where it removes the entry (overflow eviction, admission,
`removeFromQueue`), and a fired timer removes the entry itself.
-/

namespace SimpleBoard

/-- Source constant `MAX_CONCURRENT = 3` (supabase.ts line 24). -/
def MAX_CONCURRENT : Nat := 3

/-- Source constant `MAX_QUEUE_SIZE = 1000` (supabase.ts line 25). -/
def MAX_QUEUE_SIZE : Nat := 1000

/-- Source constant `REQUEST_TIMEOUT = 30000` (supabase.ts line 26). -/
def REQUEST_TIMEOUT : Nat := 30000

/-- One `QueuedRequest` (supabase.ts lines 10-18).  The `operation`,
`resolve`, `reject` closures and the `type` tag do not influence the
scheduler's control flow, so the embedding keeps only the identity and the
ordering key; the `timeout` handle is represented by queue membership. -/
structure Request where
  id : Nat
  timestamp : Nat
deriving DecidableEq, Repr

/-- The four ways a request's promise can be settled. -/
inductive Outcome
  | success
  | opFailure
  | overflow
  | timeout
deriving DecidableEq, Repr

/-- Scheduler state: the source fields `queue` and `processing` plus the
history fields described in the file header. -/
structure SchedState where
  queue : List Request
  processing : Nat
  running : List Nat
  started : List Request
  settled : List (Nat × Outcome)
  tasks : Nat
  nextId : Nat
  clock : Nat
deriving DecidableEq, Repr

/-- Initial state of the (module-global) `RequestQueueManager` instance. -/
def init : SchedState :=
  { queue := [], processing := 0, running := [], started := [],
    settled := [], tasks := 0, nextId := 0, clock := 0 }

/-- Sorted insertion of supabase.ts lines 62-68: `findIndex` of the first
queued entry with a strictly greater timestamp, `splice` before it, or
`push` when there is none. -/
def insertByTimestamp (r : Request) : List Request → List Request
  | [] => [r]
  | q :: qs =>
    if r.timestamp < q.timestamp then r :: q :: qs
    else q :: insertByTimestamp r qs

/-- Overflow eviction of supabase.ts lines 35-41: when the queue already
holds `MAX_QUEUE_SIZE` entries, `shift` the oldest, clear its timer and
reject it with the queue-overflow error. -/
def evictIfFull (MQ : Nat) (s : SchedState) : SchedState :=
  if MQ ≤ s.queue.length then
    match s.queue with
    | [] => s
    | r :: rest =>
      { s with queue := rest,
               settled := s.settled ++ [(r.id, Outcome.overflow)] }
  else s

/-- Request construction and sorted insertion of supabase.ts lines 43-68:
a fresh id, `timestamp = Date.now()`, timer armed (modelled by queue
membership), entry inserted in timestamp order. -/
def pushRequest (s : SchedState) : SchedState :=
  { s with queue := insertByTimestamp ⟨s.nextId, s.clock⟩ s.queue,
           nextId := s.nextId + 1 }

/-- One invocation of `processQueue` (supabase.ts lines 84-107) up to the
suspension at `await request.operation()`: return unless below the
concurrency ceiling with a non-empty queue; otherwise `shift` the head,
increment `processing`, clear the head's timer and start its operation. -/
def processQueue (MC : Nat) (s : SchedState) : SchedState :=
  if MC ≤ s.processing then s
  else
    match s.queue with
    | [] => s
    | r :: rest =>
      { s with queue := rest,
               processing := s.processing + 1,
               running := s.running ++ [r.id],
               started := s.started ++ [r] }

/-- The whole synchronous body of `enqueue` (supabase.ts lines 33-71):
eviction check, request creation and insertion, then the synchronous call
of `this.processQueue()`. -/
def enqueue (MC MQ : Nat) (s : SchedState) : SchedState :=
  processQueue MC (pushRequest (evictIfFull MQ s))

/-- `removeFromQueue` (supabase.ts lines 75-81): remove the first queued
entry with the given id (ids are unique) and clear its timer. -/
def removeFromQueue (id : Nat) (s : SchedState) : SchedState :=
  { s with queue := s.queue.eraseP (fun r => r.id == id) }

/-- The timeout callback of supabase.ts lines 47-50: remove the entry from
the queue and reject its promise with the timeout error. -/
def timeoutFire (id : Nat) (s : SchedState) : SchedState :=
  let s1 := removeFromQueue id s
  { s1 with settled := s1.settled ++ [(id, Outcome.timeout)] }

/-- Resumption of `processQueue` after `await request.operation()`
(supabase.ts lines 98-106): settle the request's promise with the
operation's result or error, decrement `processing`, and schedule the next
`processQueue` macrotask. -/
def complete (id : Nat) (ok : Bool) (s : SchedState) : SchedState :=
  { s with running := s.running.erase id,
           processing := s.processing - 1,
           settled :=
             s.settled ++ [(id, if ok then Outcome.success else Outcome.opFailure)],
           tasks := s.tasks + 1 }

/-- Running one scheduled `setTimeout(() => this.processQueue(), 0)`
macrotask (supabase.ts line 105). -/
def runTask (MC : Nat) (s : SchedState) : SchedState :=
  processQueue MC { s with tasks := s.tasks - 1 }

/-- `getStatus` (supabase.ts lines 110-117), the returned object literal
rendered as an ordered field list. -/
def getStatus (MC MQ : Nat) (s : SchedState) : List (String × Nat) :=
  [("queueSize", s.queue.length),
   ("processing", s.processing),
   ("maxConcurrent", MC),
   ("maxQueueSize", MQ)]

/-- `getQueueStatus` (supabase.ts lines 374-376): delegates to the global
manager's `getStatus`. -/
def getQueueStatus (s : SchedState) : List (String × Nat) :=
  getStatus MAX_CONCURRENT MAX_QUEUE_SIZE s

/-- Event-loop transition relation.  `submit` is a caller invoking
`enqueue`; `fire` is an armed timeout timer firing (only once real time
has passed the request's deadline); `finish` is an in-flight operation
settling; `task` runs one scheduled `processQueue` macrotask; `tick` is
the advance of `Date.now()` between synchronous blocks. -/
inductive Step (MC MQ RT : Nat) : SchedState → SchedState → Prop
  | submit (s : SchedState) : Step MC MQ RT s (enqueue MC MQ s)
  | fire (r : Request) (s : SchedState) (hr : r ∈ s.queue)
      (ht : r.timestamp + RT ≤ s.clock) :
      Step MC MQ RT s (timeoutFire r.id s)
  | finish (id : Nat) (ok : Bool) (s : SchedState) (h : id ∈ s.running) :
      Step MC MQ RT s (complete id ok s)
  | task (s : SchedState) (h : 0 < s.tasks) :
      Step MC MQ RT s (runTask MC s)
  | tick (n : Nat) (s : SchedState) :
      Step MC MQ RT s { s with clock := s.clock + n }

/-- States reachable from a given state. -/
def ReachFrom (MC MQ RT : Nat) : SchedState → SchedState → Prop :=
  Relation.ReflTransGen (Step MC MQ RT)

/-- States reachable from the initial state. -/
def Reach (MC MQ RT : Nat) (s : SchedState) : Prop :=
  ReachFrom MC MQ RT init s

/-- Strict ordering used for queue and admission order: earlier timestamp,
or same timestamp and earlier creation (smaller id). -/
def lexLT (a b : Request) : Prop :=
  a.timestamp < b.timestamp ∨ (a.timestamp = b.timestamp ∧ a.id < b.id)

instance (a b : Request) : Decidable (lexLT a b) := by
  unfold lexLT
  infer_instance

theorem insertByTimestamp_perm (r : Request) (l : List Request) :
    List.Perm (insertByTimestamp r l) (r :: l) := by
  induction l with
  | nil => simp [insertByTimestamp]
  | cons q qs ih =>
    by_cases h : r.timestamp < q.timestamp
    · simp [insertByTimestamp, h]
    · simp only [insertByTimestamp, if_neg h]
      exact (ih.cons q).trans (List.Perm.swap r q qs)

theorem mem_insertByTimestamp {a r : Request} {l : List Request} :
    a ∈ insertByTimestamp r l ↔ a = r ∨ a ∈ l := by
  rw [(insertByTimestamp_perm r l).mem_iff, List.mem_cons]

theorem length_insertByTimestamp (r : Request) (l : List Request) :
    (insertByTimestamp r l).length = l.length + 1 :=
  (insertByTimestamp_perm r l).length_eq

theorem lexLT_of_ts_lt_of_lexLT {a b c : Request}
    (h1 : a.timestamp < b.timestamp) (h2 : lexLT b c) : lexLT a c := by
  rcases h2 with h2 | ⟨h2, _⟩
  · exact Or.inl (h1.trans h2)
  · exact Or.inl (h2 ▸ h1)

theorem pairwise_insertByTimestamp {r : Request} {l : List Request}
    (hl : l.Pairwise lexLT) (hid : ∀ a ∈ l, a.id < r.id) :
    (insertByTimestamp r l).Pairwise lexLT := by
  induction l with
  | nil => simp [insertByTimestamp]
  | cons q qs ih =>
    rw [List.pairwise_cons] at hl
    by_cases h : r.timestamp < q.timestamp
    · simp only [insertByTimestamp, if_pos h]
      refine List.Pairwise.cons ?_ (List.Pairwise.cons hl.1 hl.2)
      intro b hb
      rcases List.mem_cons.mp hb with rfl | hb
      · exact Or.inl h
      · exact lexLT_of_ts_lt_of_lexLT h (hl.1 b hb)
    · simp only [insertByTimestamp, if_neg h]
      refine List.Pairwise.cons ?_ (ih hl.2 (fun a ha => hid a (List.mem_cons_of_mem q ha)))
      intro b hb
      rcases mem_insertByTimestamp.mp hb with rfl | hb
      · rcases Nat.lt_or_ge q.timestamp b.timestamp with hq | hq
        · exact Or.inl hq
        · exact Or.inr ⟨Nat.le_antisymm (Nat.le_of_not_lt h) hq,
            hid q (List.mem_cons_self q qs)⟩
      · exact hl.1 b hb

/-- Inductive invariant of the scheduler.  `running`, `settled`, `started`
are histories; the clauses say that every created request is in exactly one
of pending / in-flight / settled, that no request is settled twice, that
the in-flight counter matches the in-flight set and respects the ceiling,
that the queue respects the size bound and is sorted, and that admissions
happen in `lexLT` order. -/
structure Inv (MC MQ : Nat) (s : SchedState) : Prop where
  queue_lt : ∀ r ∈ s.queue, r.id < s.nextId
  running_lt : ∀ id ∈ s.running, id < s.nextId
  settled_lt : ∀ p ∈ s.settled, p.1 < s.nextId
  started_lt : ∀ r ∈ s.started, r.id < s.nextId
  queue_nodup : (s.queue.map Request.id).Nodup
  running_nodup : s.running.Nodup
  settled_nodup : (s.settled.map Prod.fst).Nodup
  disj_qr : ∀ r ∈ s.queue, r.id ∉ s.running
  disj_qs : ∀ r ∈ s.queue, ∀ p ∈ s.settled, r.id ≠ p.1
  disj_rs : ∀ id ∈ s.running, ∀ p ∈ s.settled, id ≠ p.1
  partition : ∀ id, id < s.nextId →
    (∃ r ∈ s.queue, r.id = id) ∨ id ∈ s.running ∨ (∃ p ∈ s.settled, p.1 = id)
  processing_eq : s.processing = s.running.length
  processing_le : s.processing ≤ MC
  queue_len : s.queue.length ≤ max MQ 1
  queue_sorted : s.queue.Pairwise lexLT
  queue_clock : ∀ r ∈ s.queue, r.timestamp ≤ s.clock
  started_sorted : s.started.Pairwise lexLT
  started_clock : ∀ r ∈ s.started, r.timestamp ≤ s.clock
  started_queue : ∀ a ∈ s.started, ∀ b ∈ s.queue, lexLT a b

theorem inv_init (MC MQ : Nat) : Inv MC MQ init := by
  constructor <;> simp [init]

theorem inv_evictIfFull {MC MQ : Nat} {s : SchedState} (h : Inv MC MQ s) :
    Inv MC MQ (evictIfFull MQ s) := by
  obtain ⟨queue, processing, running, started, settled, tasks, nextId, clock⟩ := s
  unfold evictIfFull
  dsimp only
  split
  case isFalse => exact h
  case isTrue hlen =>
    cases queue with
    | nil => exact h
    | cons r rest =>
      obtain ⟨ql, rl, sl, stl, qn, rn, sn, dqr, dqs, drs, part, pe, ple, qlen, qsrt, qc, sts, stc, stq⟩ := h
      dsimp only at *
      have hrid : r.id < nextId := ql r (List.mem_cons_self r rest)
      have qn' := qn
      rw [List.map_cons, List.nodup_cons] at qn'
      constructor <;> dsimp only
      · exact fun x hx => ql x (List.mem_cons_of_mem r hx)
      · exact rl
      · intro p hp
        rcases List.mem_append.mp hp with hp | hp
        · exact sl p hp
        · rcases List.mem_singleton.mp hp with rfl
          exact hrid
      · exact stl
      · exact qn'.2
      · exact rn
      · rw [List.map_append, List.map_singleton]
        rw [List.nodup_append]
        refine ⟨sn, List.nodup_singleton _, ?_⟩
        intro a ha hb
        rcases List.mem_singleton.mp hb with rfl
        rcases List.mem_map.mp ha with ⟨p, hp, hpa⟩
        exact dqs r (List.mem_cons_self r rest) p hp hpa.symm
      · exact fun x hx => dqr x (List.mem_cons_of_mem r hx)
      · intro x hx p hp
        rcases List.mem_append.mp hp with hp | hp
        · exact dqs x (List.mem_cons_of_mem r hx) p hp
        · rcases List.mem_singleton.mp hp with rfl
          intro hxr
          have hxr' : x.id = r.id := hxr
          exact qn'.1 (hxr' ▸ List.mem_map_of_mem Request.id hx)
      · intro id hid p hp
        rcases List.mem_append.mp hp with hp | hp
        · exact drs id hid p hp
        · rcases List.mem_singleton.mp hp with rfl
          intro hidr
          have hidr' : id = r.id := hidr
          exact dqr r (List.mem_cons_self r rest) (hidr' ▸ hid)
      · intro id hid
        rcases part id hid with ⟨x, hx, hxid⟩ | hmem | ⟨p, hp, hpid⟩
        · rcases List.mem_cons.mp hx with rfl | hx
          · exact Or.inr (Or.inr ⟨(x.id, Outcome.overflow),
              List.mem_append_right _ (List.mem_singleton_self _), hxid⟩)
          · exact Or.inl ⟨x, hx, hxid⟩
        · exact Or.inr (Or.inl hmem)
        · exact Or.inr (Or.inr ⟨p, List.mem_append_left _ hp, hpid⟩)
      · exact pe
      · exact ple
      · exact Nat.le_trans (Nat.le_succ rest.length) qlen
      · exact (List.pairwise_cons.mp qsrt).2
      · exact fun x hx => qc x (List.mem_cons_of_mem r hx)
      · exact sts
      · exact stc
      · exact fun a ha b hb => stq a ha b (List.mem_cons_of_mem r hb)

theorem evictIfFull_len {MC MQ : Nat} {s : SchedState} (h : Inv MC MQ s) :
    (evictIfFull MQ s).queue.length + 1 ≤ max MQ 1 := by
  have hq := h.queue_len
  unfold evictIfFull
  split
  case isTrue hlen =>
    cases hqe : s.queue with
    | nil =>
      have : MQ = 0 := by
        rw [hqe] at hlen; simpa using hlen
      simp [this, hqe]
    | cons r rest =>
      rw [hqe] at hq
      simp only [hqe, List.length_cons] at *
      omega
  case isFalse hlen =>
    have h1 : 1 ≤ MQ := by omega
    omega

theorem inv_pushRequest {MC MQ : Nat} {s : SchedState} (h : Inv MC MQ s)
    (hlen : s.queue.length + 1 ≤ max MQ 1) : Inv MC MQ (pushRequest s) := by
  obtain ⟨queue, processing, running, started, settled, tasks, nextId, clock⟩ := s
  obtain ⟨ql, rl, sl, stl, qn, rn, sn, dqr, dqs, drs, part, pe, ple, qlen, qsrt, qc, sts, stc, stq⟩ := h
  dsimp only at *
  unfold pushRequest
  dsimp only
  set r : Request := ⟨nextId, clock⟩ with hr
  constructor <;> dsimp only
  · intro x hx
    rcases mem_insertByTimestamp.mp hx with rfl | hx
    · exact Nat.lt_succ_self _
    · exact Nat.lt_succ_of_lt (ql x hx)
  · exact fun id hid => Nat.lt_succ_of_lt (rl id hid)
  · exact fun p hp => Nat.lt_succ_of_lt (sl p hp)
  · exact fun x hx => Nat.lt_succ_of_lt (stl x hx)
  · rw [List.Perm.nodup_iff ((insertByTimestamp_perm r queue).map Request.id)]
    rw [List.map_cons, List.nodup_cons]
    refine ⟨?_, qn⟩
    intro hmem
    rcases List.mem_map.mp hmem with ⟨x, hx, hxid⟩
    have hxid' : x.id = nextId := hxid
    exact Nat.lt_irrefl nextId (hxid' ▸ ql x hx)
  · exact rn
  · exact sn
  · intro x hx
    rcases mem_insertByTimestamp.mp hx with rfl | hx
    · intro hmem
      exact Nat.lt_irrefl nextId (rl _ hmem)
    · exact dqr x hx
  · intro x hx p hp
    rcases mem_insertByTimestamp.mp hx with rfl | hx
    · intro hc
      have hc' : nextId = p.1 := hc
      have := sl p hp
      omega
    · exact dqs x hx p hp
  · exact drs
  · intro id hid
    rcases Nat.lt_succ_iff_lt_or_eq.mp hid with hid | rfl
    · rcases part id hid with ⟨x, hx, hxid⟩ | hmem | hps
      · exact Or.inl ⟨x, mem_insertByTimestamp.mpr (Or.inr hx), hxid⟩
      · exact Or.inr (Or.inl hmem)
      · exact Or.inr (Or.inr hps)
    · exact Or.inl ⟨r, mem_insertByTimestamp.mpr (Or.inl rfl), rfl⟩
  · exact pe
  · exact ple
  · rw [length_insertByTimestamp]
    exact hlen
  · exact pairwise_insertByTimestamp qsrt (fun a ha => ql a ha)
  · intro x hx
    rcases mem_insertByTimestamp.mp hx with rfl | hx
    · exact Nat.le_refl _
    · exact qc x hx
  · exact sts
  · exact stc
  · intro a ha b hb
    rcases mem_insertByTimestamp.mp hb with rfl | hb
    · rcases Nat.lt_or_ge a.timestamp clock with hlt | hge
      · exact Or.inl hlt
      · exact Or.inr ⟨Nat.le_antisymm (stc a ha) hge, stl a ha⟩
    · exact stq a ha b hb

theorem inv_processQueue {MC MQ : Nat} {s : SchedState} (h : Inv MC MQ s) :
    Inv MC MQ (processQueue MC s) := by
  obtain ⟨queue, processing, running, started, settled, tasks, nextId, clock⟩ := s
  unfold processQueue
  dsimp only
  split
  case isTrue => exact h
  case isFalse hproc =>
    cases queue with
    | nil => exact h
    | cons r rest =>
      obtain ⟨ql, rl, sl, stl, qn, rn, sn, dqr, dqs, drs, part, pe, ple, qlen, qsrt, qc, sts, stc, stq⟩ := h
      dsimp only at *
      have hqn := qn
      rw [List.map_cons, List.nodup_cons] at hqn
      have hqsrt := List.pairwise_cons.mp qsrt
      constructor <;> dsimp only
      · exact fun x hx => ql x (List.mem_cons_of_mem r hx)
      · intro id hid
        rcases List.mem_append.mp hid with hid | hid
        · exact rl id hid
        · rcases List.mem_singleton.mp hid with rfl
          exact ql r (List.mem_cons_self r rest)
      · exact sl
      · intro x hx
        rcases List.mem_append.mp hx with hx | hx
        · exact stl x hx
        · rcases List.mem_singleton.mp hx with rfl
          exact ql x (List.mem_cons_self x rest)
      · exact hqn.2
      · rw [List.nodup_append]
        exact ⟨rn, List.nodup_singleton _,
          fun a ha hb => (List.mem_singleton.mp hb ▸ dqr r (List.mem_cons_self r rest)) (List.mem_singleton.mp hb ▸ ha)⟩
      · exact sn
      · intro x hx hmem
        rcases List.mem_append.mp hmem with hmem | hmem
        · exact dqr x (List.mem_cons_of_mem r hx) hmem
        · rcases List.mem_singleton.mp hmem with hxid
          exact hqn.1 (hxid ▸ List.mem_map_of_mem Request.id hx)
      · exact fun x hx => dqs x (List.mem_cons_of_mem r hx)
      · intro id hid p hp
        rcases List.mem_append.mp hid with hid | hid
        · exact drs id hid p hp
        · rcases List.mem_singleton.mp hid with rfl
          exact dqs r (List.mem_cons_self r rest) p hp
      · intro id hid
        rcases part id hid with ⟨x, hx, hxid⟩ | hmem | hps
        · rcases List.mem_cons.mp hx with rfl | hx
          · exact Or.inr (Or.inl (List.mem_append_right _ (hxid ▸ List.mem_singleton_self x.id)))
          · exact Or.inl ⟨x, hx, hxid⟩
        · exact Or.inr (Or.inl (List.mem_append_left _ hmem))
        · exact Or.inr (Or.inr hps)
      · rw [List.length_append, List.length_singleton, pe]
      · exact Nat.succ_le_of_lt (Nat.lt_of_not_le hproc)
      · exact Nat.le_trans (Nat.le_succ rest.length) qlen
      · exact hqsrt.2
      · exact fun x hx => qc x (List.mem_cons_of_mem r hx)
      · rw [List.pairwise_append]
        exact ⟨sts, List.pairwise_singleton _ _,
          fun a ha b hb => List.mem_singleton.mp hb ▸ stq a ha r (List.mem_cons_self r rest)⟩
      · intro x hx
        rcases List.mem_append.mp hx with hx | hx
        · exact stc x hx
        · rcases List.mem_singleton.mp hx with rfl
          exact qc x (List.mem_cons_self x rest)
      · intro a ha b hb
        rcases List.mem_append.mp ha with ha | ha
        · exact stq a ha b (List.mem_cons_of_mem r hb)
        · rcases List.mem_singleton.mp ha with rfl
          exact hqsrt.1 b hb

theorem eraseP_decomp {r : Request} {l : List Request}
    (hnd : (l.map Request.id).Nodup) (hr : r ∈ l) :
    ∃ l1 l2, l = l1 ++ r :: l2 ∧
      l.eraseP (fun q => q.id == r.id) = l1 ++ l2 ∧
      ∀ x ∈ l1 ++ l2, x.id ≠ r.id := by
  obtain ⟨a, l1, l2, hnp, hpa, hl, he⟩ :=
    @List.exists_of_eraseP Request (fun q => q.id == r.id) l r hr (by simp)
  have hal : a ∈ l := by
    rw [hl]; exact List.mem_append_right l1 (List.mem_cons_self a l2)
  have ha : a = r :=
    List.inj_on_of_nodup_map hnd hal hr (by simpa using hpa)
  subst ha
  refine ⟨l1, l2, hl, he, ?_⟩
  intro x hx
  rcases List.mem_append.mp hx with hx | hx
  · have := hnp x hx
    simpa using this
  · rw [hl, List.map_append, List.map_cons] at hnd
    have h2 := (List.nodup_append.mp hnd).2.1
    rw [List.nodup_cons] at h2
    intro hc
    exact h2.1 (hc ▸ List.mem_map_of_mem Request.id hx)

theorem inv_timeoutFire {MC MQ : Nat} {s : SchedState} {r : Request}
    (h : Inv MC MQ s) (hr : r ∈ s.queue) : Inv MC MQ (timeoutFire r.id s) := by
  obtain ⟨queue, processing, running, started, settled, tasks, nextId, clock⟩ := s
  obtain ⟨ql, rl, sl, stl, qn, rn, sn, dqr, dqs, drs, part, pe, ple, qlen, qsrt, qc, sts, stc, stq⟩ := h
  dsimp only at *
  obtain ⟨l1, l2, hl, he, hni⟩ := eraseP_decomp qn hr
  have hsl : (l1 ++ l2).Sublist queue := he ▸ List.eraseP_sublist queue
  have hsub : ∀ x ∈ l1 ++ l2, x ∈ queue := fun x hx => hsl.mem hx
  unfold timeoutFire removeFromQueue
  dsimp only
  rw [he]
  constructor <;> dsimp only
  · exact fun x hx => ql x (hsub x hx)
  · exact rl
  · intro p hp
    rcases List.mem_append.mp hp with hp | hp
    · exact sl p hp
    · rcases List.mem_singleton.mp hp with rfl
      exact ql r hr
  · exact stl
  · exact List.Nodup.sublist (List.Sublist.map Request.id hsl) qn
  · exact rn
  · rw [List.map_append, List.map_singleton, List.nodup_append]
    refine ⟨sn, List.nodup_singleton _, ?_⟩
    intro a ha hb
    rcases List.mem_singleton.mp hb with rfl
    rcases List.mem_map.mp ha with ⟨p, hp, hpa⟩
    exact dqs r hr p hp hpa.symm
  · exact fun x hx => dqr x (hsub x hx)
  · intro x hx p hp
    rcases List.mem_append.mp hp with hp | hp
    · exact dqs x (hsub x hx) p hp
    · rcases List.mem_singleton.mp hp with rfl
      exact hni x hx
  · intro id hid p hp
    rcases List.mem_append.mp hp with hp | hp
    · exact drs id hid p hp
    · rcases List.mem_singleton.mp hp with rfl
      intro hc
      have hc' : id = r.id := hc
      exact dqr r hr (hc' ▸ hid)
  · intro id hid
    by_cases hidr : id = r.id
    · exact Or.inr (Or.inr ⟨(r.id, Outcome.timeout),
        List.mem_append_right _ (List.mem_singleton_self _), hidr.symm⟩)
    · rcases part id hid with ⟨x, hx, hxid⟩ | hmem | ⟨p, hp, hpid⟩
      · refine Or.inl ⟨x, ?_, hxid⟩
        rw [hl] at hx
        rcases List.mem_append.mp hx with hx | hx
        · exact List.mem_append_left _ hx
        · rcases List.mem_cons.mp hx with rfl | hx
          · exact absurd hxid.symm hidr
          · exact List.mem_append_right _ hx
      · exact Or.inr (Or.inl hmem)
      · exact Or.inr (Or.inr ⟨p, List.mem_append_left _ hp, hpid⟩)
  · exact pe
  · exact ple
  · exact Nat.le_trans hsl.length_le qlen
  · exact List.Pairwise.sublist hsl qsrt
  · exact fun x hx => qc x (hsub x hx)
  · exact sts
  · exact stc
  · exact fun a ha b hb => stq a ha b (hsub b hb)

theorem inv_complete {MC MQ : Nat} {s : SchedState} {id : Nat} {ok : Bool}
    (h : Inv MC MQ s) (hid : id ∈ s.running) : Inv MC MQ (complete id ok s) := by
  obtain ⟨queue, processing, running, started, settled, tasks, nextId, clock⟩ := s
  obtain ⟨ql, rl, sl, stl, qn, rn, sn, dqr, dqs, drs, part, pe, ple, qlen, qsrt, qc, sts, stc, stq⟩ := h
  dsimp only at *
  unfold complete
  dsimp only
  constructor <;> dsimp only
  · exact ql
  · exact fun x hx => rl x (List.erase_subset id running hx)
  · intro p hp
    rcases List.mem_append.mp hp with hp | hp
    · exact sl p hp
    · rcases List.mem_singleton.mp hp with rfl
      exact rl id hid
  · exact stl
  · exact qn
  · exact rn.erase id
  · rw [List.map_append, List.map_singleton, List.nodup_append]
    refine ⟨sn, List.nodup_singleton _, ?_⟩
    intro a ha hb
    have hb' : a = id := List.mem_singleton.mp hb
    rcases List.mem_map.mp ha with ⟨p, hp, hpa⟩
    exact drs id hid p hp ((hpa.trans hb').symm)
  · exact fun x hx hmem => dqr x hx (List.erase_subset id running hmem)
  · intro x hx p hp
    rcases List.mem_append.mp hp with hp | hp
    · exact dqs x hx p hp
    · rcases List.mem_singleton.mp hp with rfl
      intro hc
      have hc' : x.id = id := hc
      exact dqr x hx (hc' ▸ hid)
  · intro x hx p hp
    have hx' := (rn.mem_erase_iff.mp hx)
    rcases List.mem_append.mp hp with hp | hp
    · exact drs x hx'.2 p hp
    · rcases List.mem_singleton.mp hp with rfl
      exact hx'.1
  · intro i hi
    rcases part i hi with hq | hmem | ⟨p, hp, hpid⟩
    · exact Or.inl hq
    · by_cases hii : i = id
      · exact Or.inr (Or.inr ⟨(id, if ok then Outcome.success else Outcome.opFailure),
          List.mem_append_right _ (List.mem_singleton_self _), hii.symm⟩)
      · exact Or.inr (Or.inl (rn.mem_erase_iff.mpr ⟨hii, hmem⟩))
    · exact Or.inr (Or.inr ⟨p, List.mem_append_left _ hp, hpid⟩)
  · rw [List.length_erase_of_mem hid, pe]
  · exact Nat.le_trans (Nat.sub_le _ _) ple
  · exact qlen
  · exact qsrt
  · exact qc
  · exact sts
  · exact stc
  · exact stq

theorem inv_tasks {MC MQ : Nat} {s : SchedState} (t : Nat) (h : Inv MC MQ s) :
    Inv MC MQ { s with tasks := t } := by
  obtain ⟨queue, processing, running, started, settled, tasks, nextId, clock⟩ := s
  obtain ⟨ql, rl, sl, stl, qn, rn, sn, dqr, dqs, drs, part, pe, ple, qlen, qsrt, qc, sts, stc, stq⟩ := h
  exact ⟨ql, rl, sl, stl, qn, rn, sn, dqr, dqs, drs, part, pe, ple, qlen, qsrt, qc, sts, stc, stq⟩

theorem inv_tick {MC MQ : Nat} {s : SchedState} (n : Nat) (h : Inv MC MQ s) :
    Inv MC MQ { s with clock := s.clock + n } := by
  obtain ⟨queue, processing, running, started, settled, tasks, nextId, clock⟩ := s
  obtain ⟨ql, rl, sl, stl, qn, rn, sn, dqr, dqs, drs, part, pe, ple, qlen, qsrt, qc, sts, stc, stq⟩ := h
  dsimp only at *
  exact ⟨ql, rl, sl, stl, qn, rn, sn, dqr, dqs, drs, part, pe, ple, qlen, qsrt,
    fun x hx => Nat.le_trans (qc x hx) (Nat.le_add_right _ _), sts,
    fun x hx => Nat.le_trans (stc x hx) (Nat.le_add_right _ _), stq⟩

theorem inv_enqueue {MC MQ : Nat} {s : SchedState} (h : Inv MC MQ s) :
    Inv MC MQ (enqueue MC MQ s) :=
  inv_processQueue (inv_pushRequest (inv_evictIfFull h) (evictIfFull_len h))

theorem inv_runTask {MC MQ : Nat} {s : SchedState} (h : Inv MC MQ s) :
    Inv MC MQ (runTask MC s) :=
  inv_processQueue (inv_tasks _ h)

theorem inv_step {MC MQ RT : Nat} {s t : SchedState} (hst : Step MC MQ RT s t)
    (h : Inv MC MQ s) : Inv MC MQ t := by
  cases hst with
  | submit => exact inv_enqueue h
  | fire r _ hr _ => exact inv_timeoutFire h hr
  | finish id ok _ hid => exact inv_complete h hid
  | task _ ht => exact inv_runTask h
  | tick n => exact inv_tick n h

theorem reach_inv {MC MQ RT : Nat} {s : SchedState} (h : Reach MC MQ RT s) :
    Inv MC MQ s := by
  induction h with
  | refl => exact inv_init MC MQ
  | tail _ hstep ih => exact inv_step hstep ih

theorem processQueue_settled (MC : Nat) (s : SchedState) :
    (processQueue MC s).settled = s.settled := by
  obtain ⟨queue, processing, running, started, settled, tasks, nextId, clock⟩ := s
  unfold processQueue
  dsimp only
  split
  · rfl
  · cases queue with
    | nil => rfl
    | cons r rest => rfl

theorem processQueue_nextId (MC : Nat) (s : SchedState) :
    (processQueue MC s).nextId = s.nextId := by
  obtain ⟨queue, processing, running, started, settled, tasks, nextId, clock⟩ := s
  unfold processQueue
  dsimp only
  split
  · rfl
  · cases queue with
    | nil => rfl
    | cons r rest => rfl

theorem processQueue_queue_sub {MC : Nat} {s : SchedState} :
    ∀ x ∈ (processQueue MC s).queue, x ∈ s.queue := by
  obtain ⟨queue, processing, running, started, settled, tasks, nextId, clock⟩ := s
  unfold processQueue
  dsimp only
  split
  · exact fun x hx => hx
  · cases queue with
    | nil => exact fun x hx => hx
    | cons r rest => exact fun x hx => List.mem_cons_of_mem r hx

theorem evictIfFull_nextId (MQ : Nat) (s : SchedState) :
    (evictIfFull MQ s).nextId = s.nextId := by
  obtain ⟨queue, processing, running, started, settled, tasks, nextId, clock⟩ := s
  unfold evictIfFull
  dsimp only
  split
  · cases queue with
    | nil => rfl
    | cons r rest => rfl
  · rfl

theorem evictIfFull_queue_sub {MQ : Nat} {s : SchedState} :
    ∀ x ∈ (evictIfFull MQ s).queue, x ∈ s.queue := by
  obtain ⟨queue, processing, running, started, settled, tasks, nextId, clock⟩ := s
  unfold evictIfFull
  dsimp only
  split
  · cases queue with
    | nil => exact fun x hx => hx
    | cons r rest => exact fun x hx => List.mem_cons_of_mem r hx
  · exact fun x hx => hx

theorem evictIfFull_settled_mono {MQ : Nat} {s : SchedState} :
    ∀ p ∈ s.settled, p ∈ (evictIfFull MQ s).settled := by
  obtain ⟨queue, processing, running, started, settled, tasks, nextId, clock⟩ := s
  unfold evictIfFull
  dsimp only
  split
  · cases queue with
    | nil => exact fun p hp => hp
    | cons r rest => exact fun p hp => List.mem_append_left _ hp
  · exact fun p hp => hp

theorem evictIfFull_settled_entries {MQ : Nat} {s : SchedState} :
    ∀ p ∈ (evictIfFull MQ s).settled,
      p ∈ s.settled ∨ (p.2 = Outcome.overflow ∧ ∃ r ∈ s.queue, r.id = p.1) := by
  obtain ⟨queue, processing, running, started, settled, tasks, nextId, clock⟩ := s
  unfold evictIfFull
  dsimp only
  split
  · cases queue with
    | nil => exact fun p hp => Or.inl hp
    | cons r rest =>
      intro p hp
      rcases List.mem_append.mp hp with hp | hp
      · exact Or.inl hp
      · rcases List.mem_singleton.mp hp with rfl
        exact Or.inr ⟨rfl, r, List.mem_cons_self r rest, rfl⟩
  · exact fun p hp => Or.inl hp

theorem enqueue_settled (MC MQ : Nat) (s : SchedState) :
    (enqueue MC MQ s).settled = (evictIfFull MQ s).settled := by
  unfold enqueue
  rw [processQueue_settled]
  rfl

theorem enqueue_nextId (MC MQ : Nat) (s : SchedState) :
    (enqueue MC MQ s).nextId = s.nextId + 1 := by
  unfold enqueue
  rw [processQueue_nextId]
  unfold pushRequest
  dsimp only
  rw [evictIfFull_nextId]

theorem enqueue_queue_sub {MC MQ : Nat} {s : SchedState} :
    ∀ x ∈ (enqueue MC MQ s).queue,
      x = ⟨s.nextId, s.clock⟩ ∨ x ∈ s.queue := by
  intro x hx
  have hx1 := processQueue_queue_sub x hx
  unfold pushRequest at hx1
  dsimp only at hx1
  rcases mem_insertByTimestamp.mp hx1 with rfl | hx1
  · rw [evictIfFull_nextId]
    have hc : (evictIfFull MQ s).clock = s.clock := by
      obtain ⟨queue, processing, running, started, settled, tasks, nextId, clock⟩ := s
      unfold evictIfFull
      dsimp only
      split
      · cases queue with
        | nil => rfl
        | cons r rest => rfl
      · rfl
    rw [hc]
    exact Or.inl rfl
  · exact Or.inr (evictIfFull_queue_sub x hx1)

theorem step_settled_mono {MC MQ RT : Nat} {s t : SchedState}
    (hst : Step MC MQ RT s t) : ∀ p ∈ s.settled, p ∈ t.settled := by
  cases hst with
  | submit =>
    intro p hp
    rw [enqueue_settled]
    exact evictIfFull_settled_mono p hp
  | fire r _ hr ht =>
    intro p hp
    exact List.mem_append_left _ hp
  | finish id ok _ h =>
    intro p hp
    exact List.mem_append_left _ hp
  | task _ h =>
    intro p hp
    rw [runTask, processQueue_settled]
    exact hp
  | tick n => exact fun p hp => hp

theorem reachFrom_settled_mono {MC MQ RT : Nat} {s t : SchedState}
    (h : ReachFrom MC MQ RT s t) : ∀ p ∈ s.settled, p ∈ t.settled := by
  induction h with
  | refl => exact fun p hp => hp
  | tail _ hstep ih => exact fun p hp => step_settled_mono hstep p (ih p hp)

/-- Once a request's promise has been settled, the request is never
in-flight in any later state. -/
theorem settled_never_running {MC MQ RT : Nat} {s t : SchedState}
    (hs : Reach MC MQ RT s) (hst : ReachFrom MC MQ RT s t)
    {id : Nat} {o : Outcome} (hp : (id, o) ∈ s.settled) : id ∉ t.running := by
  have hrt : Reach MC MQ RT t := Relation.ReflTransGen.trans hs hst
  have hinv := reach_inv hrt
  intro hmem
  exact hinv.disj_rs id hmem (id, o) (reachFrom_settled_mono hst (id, o) hp) rfl

/-- C1: every operation submitted via `enqueue` is settled at most once
(the settlement history `settled` never records the same request twice),
every created request is at all times in exactly one of pending / in-flight /
settled (so none is lost), and from every reachable state every still
unsettled request can be driven to a settlement by the system's own events
(timeout firing for pending requests, operation completion for in-flight
ones) — no request is left permanently unsettleable. -/
theorem exactly_once_settlement (MC MQ RT : Nat) (s : SchedState)
    (h : Reach MC MQ RT s) :
    ((s.settled.map Prod.fst).Nodup) ∧
    (∀ id, id < s.nextId →
      ((∃ r ∈ s.queue, r.id = id) ∨ id ∈ s.running ∨ ∃ p ∈ s.settled, p.1 = id)) ∧
    (∀ r ∈ s.queue, r.id ∉ s.running ∧ ∀ p ∈ s.settled, r.id ≠ p.1) ∧
    (∀ id ∈ s.running, ∀ p ∈ s.settled, id ≠ p.1) ∧
    (∀ id, id < s.nextId → (∀ p ∈ s.settled, p.1 ≠ id) →
      ∃ t, ReachFrom MC MQ RT s t ∧ ∃ p ∈ t.settled, p.1 = id) := by
  have hinv := reach_inv h
  refine ⟨hinv.settled_nodup, hinv.partition,
    fun r hr => ⟨hinv.disj_qr r hr, hinv.disj_qs r hr⟩, hinv.disj_rs, ?_⟩
  intro id hid hunset
  rcases hinv.partition id hid with ⟨r, hr, hrid⟩ | hmem | ⟨p, hp, hpid⟩
  · subst hrid
    refine ⟨timeoutFire r.id { s with clock := s.clock + (r.timestamp + RT) },
      Relation.ReflTransGen.tail
        (Relation.ReflTransGen.tail Relation.ReflTransGen.refl
          (Step.tick (r.timestamp + RT) s))
        (Step.fire r _ hr (Nat.le_add_left _ _)), ?_⟩
    exact ⟨(r.id, Outcome.timeout),
      List.mem_append_right _ (List.mem_singleton_self _), rfl⟩
  · exact ⟨complete id true s,
      Relation.ReflTransGen.tail Relation.ReflTransGen.refl
        (Step.finish id true s hmem),
      (id, Outcome.success),
      List.mem_append_right _ (List.mem_singleton_self _), rfl⟩
  · exact absurd hpid (hunset p hp)

/-- Concrete instantiation of `exactly_once_settlement`: after one
submission from the initial state of the source's manager. -/
theorem exactly_once_settlement_witness :
    (((enqueue 3 1000 init).settled.map Prod.fst).Nodup) ∧
    (∀ id, id < (enqueue 3 1000 init).nextId →
      ((∃ r ∈ (enqueue 3 1000 init).queue, r.id = id) ∨
        id ∈ (enqueue 3 1000 init).running ∨
        ∃ p ∈ (enqueue 3 1000 init).settled, p.1 = id)) ∧
    (∀ r ∈ (enqueue 3 1000 init).queue,
      r.id ∉ (enqueue 3 1000 init).running ∧
      ∀ p ∈ (enqueue 3 1000 init).settled, r.id ≠ p.1) ∧
    (∀ id ∈ (enqueue 3 1000 init).running,
      ∀ p ∈ (enqueue 3 1000 init).settled, id ≠ p.1) ∧
    (∀ id, id < (enqueue 3 1000 init).nextId →
      (∀ p ∈ (enqueue 3 1000 init).settled, p.1 ≠ id) →
      ∃ t, ReachFrom 3 1000 30000 (enqueue 3 1000 init) t ∧
        ∃ p ∈ t.settled, p.1 = id) :=
  exactly_once_settlement 3 1000 30000 (enqueue 3 1000 init)
    (Relation.ReflTransGen.tail Relation.ReflTransGen.refl (Step.submit init))

/-- C2: at every reachable state the in-flight counter `processing` is
between `0` and `MAX_CONCURRENT` (the lower bound is inherent in the
counter's type), and the set of concurrently executing operations has at
most `MAX_CONCURRENT` elements — for any number of submissions. -/
theorem concurrency_bound (MC MQ RT : Nat) (s : SchedState)
    (h : Reach MC MQ RT s) :
    s.processing ≤ MC ∧ s.running.length ≤ MC := by
  have hinv := reach_inv h
  exact ⟨hinv.processing_le, hinv.processing_eq ▸ hinv.processing_le⟩

/-- State reached by four back-to-back submissions (one more than the
source's `MAX_CONCURRENT = 3`). -/
def fourSubmits : SchedState :=
  enqueue 3 1000 (enqueue 3 1000 (enqueue 3 1000 (enqueue 3 1000 init)))

/-- Concrete instantiation of `concurrency_bound`: four submissions never
push the in-flight count above `MAX_CONCURRENT = 3`. -/
theorem concurrency_bound_witness :
    fourSubmits.processing ≤ 3 ∧ fourSubmits.running.length ≤ 3 :=
  concurrency_bound 3 1000 30000 fourSubmits
    (Relation.ReflTransGen.tail
      (Relation.ReflTransGen.tail
        (Relation.ReflTransGen.tail
          (Relation.ReflTransGen.tail Relation.ReflTransGen.refl
            (Step.submit init))
          (Step.submit _))
        (Step.submit _))
      (Step.submit _))

theorem evictIfFull_evicts {MQ : Nat} {s : SchedState} {r : Request}
    {rest : List Request} (hq : s.queue = r :: rest)
    (hlen : MQ ≤ s.queue.length) :
    evictIfFull MQ s =
      { s with
        queue := rest,
        settled := s.settled ++ [(r.id, Outcome.overflow)] } := by
  obtain ⟨queue, processing, running, started, settled, tasks, nextId, clock⟩ := s
  dsimp only at hq hlen
  subst hq
  unfold evictIfFull
  dsimp only
  rw [if_pos hlen]

theorem processQueue_running_sub {MC : Nat} {s : SchedState} :
    ∀ id ∈ (processQueue MC s).running,
      id ∈ s.running ∨ ∃ q ∈ s.queue, q.id = id := by
  obtain ⟨queue, processing, running, started, settled, tasks, nextId, clock⟩ := s
  unfold processQueue
  dsimp only
  split
  · exact fun id hid => Or.inl hid
  · cases queue with
    | nil => exact fun id hid => Or.inl hid
    | cons r rest =>
      intro id hid
      rcases List.mem_append.mp hid with hid | hid
      · exact Or.inl hid
      · rcases List.mem_singleton.mp hid with rfl
        exact Or.inr ⟨r, List.mem_cons_self r rest, rfl⟩

theorem processQueue_preserves {MC : Nat} {s : SchedState} :
    ∀ q ∈ s.queue, q ∈ (processQueue MC s).queue ∨
      q.id ∈ (processQueue MC s).running := by
  obtain ⟨queue, processing, running, started, settled, tasks, nextId, clock⟩ := s
  unfold processQueue
  dsimp only
  split
  · exact fun q hq => Or.inl hq
  · cases queue with
    | nil => exact fun q hq => Or.inl hq
    | cons r rest =>
      intro q hq
      rcases List.mem_cons.mp hq with rfl | hq
      · exact Or.inr (List.mem_append_right _ (List.mem_singleton_self _))
      · exact Or.inl hq

/-- C3: at every reachable state the pending queue holds at most
`MAX_QUEUE_SIZE` entries, and a submission arriving with the queue at
capacity evicts exactly the single oldest pending entry: its promise is
rejected with the queue-overflow failure (and its timer disarmed, which in
this model is its removal from the queue), the evicted entry is the
least element of the sorted queue, it is gone from the queue, it is not
admitted by this or any later step (never executed), and the new request
is inserted (pending or immediately admitted). -/
theorem queue_bound_and_eviction (MC MQ RT : Nat) (s : SchedState)
    (h : Reach MC MQ RT s) (hMQ : 1 ≤ MQ) :
    s.queue.length ≤ MQ ∧
    (∀ r rest, s.queue = r :: rest → s.queue.length = MQ →
      (enqueue MC MQ s).settled = s.settled ++ [(r.id, Outcome.overflow)] ∧
      (∀ q ∈ rest, lexLT r q) ∧
      (∀ q ∈ (enqueue MC MQ s).queue, q.id ≠ r.id) ∧
      r.id ∉ (enqueue MC MQ s).running ∧
      ((∃ q ∈ (enqueue MC MQ s).queue, q.id = s.nextId) ∨
        s.nextId ∈ (enqueue MC MQ s).running) ∧
      (∀ t, ReachFrom MC MQ RT (enqueue MC MQ s) t → r.id ∉ t.running)) := by
  have hinv := reach_inv h
  constructor
  · calc s.queue.length ≤ max MQ 1 := hinv.queue_len
      _ = MQ := Nat.max_eq_left hMQ
  intro r rest hq hlen
  have hrmem : r ∈ s.queue := hq ▸ List.mem_cons_self r rest
  have hrid : r.id < s.nextId := hinv.queue_lt r hrmem
  have hle : MQ ≤ s.queue.length := Nat.le_of_eq hlen.symm
  have hev := evictIfFull_evicts hq hle
  have hqn := hinv.queue_nodup
  rw [hq, List.map_cons, List.nodup_cons] at hqn
  -- ids of the post-enqueue queue
  have hqsub : ∀ q ∈ (enqueue MC MQ s).queue,
      q = (⟨s.nextId, s.clock⟩ : Request) ∨ q ∈ rest := by
    intro q hqq
    have h1 := processQueue_queue_sub q hqq
    unfold pushRequest at h1
    dsimp only at h1
    rw [hev] at h1
    dsimp only at h1
    rcases mem_insertByTimestamp.mp h1 with rfl | h1
    · exact Or.inl rfl
    · exact Or.inr h1
  have hqid : ∀ q ∈ (enqueue MC MQ s).queue, q.id ≠ r.id := by
    intro q hqq
    rcases hqsub q hqq with rfl | hqq
    · exact fun hc => Nat.lt_irrefl _ ((show r.id = s.nextId from hc.symm) ▸ hrid)
    · intro hc
      exact hqn.1 (hc ▸ List.mem_map_of_mem Request.id hqq)
  refine ⟨?_, ?_, hqid, ?_, ?_, ?_⟩
  · rw [enqueue_settled, hev]
  · have := hinv.queue_sorted
    rw [hq, List.pairwise_cons] at this
    exact this.1
  · intro hmem
    rcases processQueue_running_sub r.id hmem with hmem | ⟨q, hqq, hqid'⟩
    · have : (pushRequest (evictIfFull MQ s)).running = s.running := by
        rw [hev]; rfl
      rw [this] at hmem
      exact hinv.disj_qr r hrmem hmem
    · unfold pushRequest at hqq
      dsimp only at hqq
      rw [hev] at hqq
      dsimp only at hqq
      rcases mem_insertByTimestamp.mp hqq with rfl | hqq
      · have hq1 : s.nextId = r.id := hqid'
        exact Nat.lt_irrefl _ (hq1 ▸ hrid)
      · exact hqn.1 (hqid' ▸ List.mem_map_of_mem Request.id hqq)
  · have hnewmem : (⟨(evictIfFull MQ s).nextId, (evictIfFull MQ s).clock⟩ : Request)
        ∈ (pushRequest (evictIfFull MQ s)).queue := by
      unfold pushRequest
      dsimp only
      exact mem_insertByTimestamp.mpr (Or.inl rfl)
    have hid2 : (evictIfFull MQ s).nextId = s.nextId := evictIfFull_nextId MQ s
    rcases processQueue_preserves _ hnewmem with hmem | hmem
    · exact Or.inl ⟨_, hmem, hid2⟩
    · exact Or.inr (by rw [← hid2]; exact hmem)
  · intro t ht
    have hset : (r.id, Outcome.overflow) ∈ (enqueue MC MQ s).settled := by
      rw [enqueue_settled, hev]
      exact List.mem_append_right _ (List.mem_singleton_self _)
    exact settled_never_running
      (Relation.ReflTransGen.tail h (Step.submit s)) ht hset

/-- State with a saturated queue: one submission with `MAX_QUEUE_SIZE = 1`
and `MAX_CONCURRENT = 0` (no admission possible). -/
def oneQueued : SchedState := enqueue 0 1 init

/-- Concrete instantiation of `queue_bound_and_eviction`: the queue bound
holds at `oneQueued`, and a further submission evicts the oldest entry with
a queue-overflow settlement. -/
theorem queue_bound_and_eviction_witness :
    oneQueued.queue.length ≤ 1 ∧
    (enqueue 0 1 oneQueued).settled =
      oneQueued.settled ++ [(0, Outcome.overflow)] ∧
    (0 : Nat) ∉ (enqueue 0 1 oneQueued).running := by
  have h := queue_bound_and_eviction 0 1 30000 oneQueued
    (Relation.ReflTransGen.tail Relation.ReflTransGen.refl (Step.submit init))
    (by decide)
  have h2 := h.2 ⟨0, 0⟩ [] rfl rfl
  exact ⟨h.1, h2.1, h2.2.2.2.1⟩

/-- Auxiliary predicate for C4: request `id` is not pending, and its
settlement history holds no timeout rejection.  This is preserved by every
step, and holds as soon as the request is admitted. -/
def NoTimeoutFor (id : Nat) (s : SchedState) : Prop :=
  (∀ r ∈ s.queue, r.id ≠ id) ∧ id < s.nextId ∧
  (∀ p ∈ s.settled, p.1 = id → p.2 ≠ Outcome.timeout)

theorem noTimeoutFor_step {MC MQ RT : Nat} {s t : SchedState} {id : Nat}
    (hst : Step MC MQ RT s t) (h : NoTimeoutFor id s) : NoTimeoutFor id t := by
  obtain ⟨hq, hn, hs⟩ := h
  cases hst with
  | submit =>
    refine ⟨?_, ?_, ?_⟩
    · intro r hr
      rcases enqueue_queue_sub r hr with rfl | hr
      · intro hc
        have hc' : s.nextId = id := hc
        omega
      · exact hq r hr
    · rw [enqueue_nextId]
      omega
    · intro p hp hpid
      rw [enqueue_settled] at hp
      rcases evictIfFull_settled_entries p hp with hp | ⟨hov, _⟩
      · exact hs p hp hpid
      · rw [hov]
        intro hc
        cases hc
  | fire r _ hr ht =>
    refine ⟨?_, hn, ?_⟩
    · intro x hx
      exact hq x ((List.eraseP_sublist s.queue).mem hx)
    · intro p hp hpid
      rcases List.mem_append.mp hp with hp | hp
      · exact hs p hp hpid
      · rcases List.mem_singleton.mp hp with rfl
        exact absurd hpid (hq r hr)
  | finish id' ok _ h' =>
    refine ⟨hq, hn, ?_⟩
    intro p hp hpid
    rcases List.mem_append.mp hp with hp | hp
    · exact hs p hp hpid
    · rcases List.mem_singleton.mp hp with rfl
      cases ok <;> simp
  | task _ h' =>
    refine ⟨?_, ?_, ?_⟩
    · intro x hx
      rw [runTask] at hx
      exact hq x (@processQueue_queue_sub MC { s with tasks := s.tasks - 1 } x hx)
    · rw [runTask, processQueue_nextId]
      exact hn
    · intro p hp hpid
      rw [runTask, processQueue_settled] at hp
      exact hs p hp hpid
  | tick n => exact ⟨hq, hn, hs⟩

theorem noTimeoutFor_reachFrom {MC MQ RT : Nat} {s t : SchedState} {id : Nat}
    (hst : ReachFrom MC MQ RT s t) (h : NoTimeoutFor id s) :
    NoTimeoutFor id t := by
  induction hst with
  | refl => exact h
  | tail _ hstep ih => exact noTimeoutFor_step hstep ih

/-- C4: the per-request timeout bounds queue-wait time only.  First, an
admitted (in-flight) operation is never settled with a timeout in any
later reachable state, no matter how long it runs: its timer was cleared
at admission.  Second, any step that produces a new timeout settlement is
a timer firing against a request that was still pending with its deadline
(`submittedAt + REQUEST_TIMEOUT`) past, and it removes that request from
the queue.  Third, a pending request whose deadline has passed can fire:
the firing removes it from the queue and rejects it with the timeout
failure. -/
theorem timeout_bounds_wait_only (MC MQ RT : Nat) (s : SchedState)
    (h : Reach MC MQ RT s) :
    (∀ id ∈ s.running, ∀ t, ReachFrom MC MQ RT s t →
      ∀ p ∈ t.settled, p.1 = id → p.2 ≠ Outcome.timeout) ∧
    (∀ t, Step MC MQ RT s t → ∀ id, (id, Outcome.timeout) ∈ t.settled →
      (id, Outcome.timeout) ∉ s.settled →
      ∃ r ∈ s.queue, r.id = id ∧ r.timestamp + RT ≤ s.clock ∧
        ∀ q ∈ t.queue, q.id ≠ id) ∧
    (∀ r ∈ s.queue, r.timestamp + RT ≤ s.clock →
      Step MC MQ RT s (timeoutFire r.id s) ∧
      (r.id, Outcome.timeout) ∈ (timeoutFire r.id s).settled ∧
      ∀ q ∈ (timeoutFire r.id s).queue, q.id ≠ r.id) := by
  have hinv := reach_inv h
  refine ⟨?_, ?_, ?_⟩
  · intro id hmem t ht p hp hpid
    have h0 : NoTimeoutFor id s := by
      refine ⟨?_, hinv.running_lt id hmem, ?_⟩
      · intro r hr hc
        exact hinv.disj_qr r hr (by rw [hc]; exact hmem)
      · intro p' hp' hpid' hto
        exact hinv.disj_rs id hmem p' hp' hpid'.symm
    exact (noTimeoutFor_reachFrom ht h0).2.2 p hp hpid
  · intro t hst id hnew hold
    cases hst with
    | submit =>
      rw [enqueue_settled] at hnew
      rcases evictIfFull_settled_entries _ hnew with hp | ⟨hov, _⟩
      · exact absurd hp hold
      · exact absurd hov (by simp)
    | fire r _ hr ht =>
      rcases List.mem_append.mp hnew with hp | hp
      · exact absurd hp hold
      · have heq : (id, Outcome.timeout) = (r.id, Outcome.timeout) :=
          List.mem_singleton.mp hp
        have hid : id = r.id := congrArg Prod.fst heq
        subst hid
        obtain ⟨l1, l2, hl, he, hni⟩ := eraseP_decomp hinv.queue_nodup hr
        refine ⟨r, hr, rfl, ht, ?_⟩
        intro q hqq
        have hq2 : q ∈ l1 ++ l2 := by
          rw [← he]
          exact hqq
        exact hni q hq2
    | finish id' ok _ h' =>
      rcases List.mem_append.mp hnew with hp | hp
      · exact absurd hp hold
      · have heq := List.mem_singleton.mp hp
        cases ok <;> simp at heq
    | task _ h' =>
      rw [runTask, processQueue_settled] at hnew
      exact absurd hnew hold
    | tick n => exact absurd hnew hold
  · intro r hr ht
    obtain ⟨l1, l2, hl, he, hni⟩ := eraseP_decomp hinv.queue_nodup hr
    refine ⟨Step.fire r s hr ht,
      List.mem_append_right _ (List.mem_singleton_self _), ?_⟩
    intro q hqq
    have hq2 : q ∈ l1 ++ l2 := by
      rw [← he]
      exact hqq
    exact hni q hq2

/-- Concrete instantiation of `timeout_bounds_wait_only`: with timeout
duration `0`, the single pending request of `enqueue 0 1000 init` can fire
and is settled with the timeout failure. -/
theorem timeout_bounds_wait_only_witness :
    ((0 : Nat), Outcome.timeout) ∈ (timeoutFire 0 (enqueue 0 1000 init)).settled := by
  have h := timeout_bounds_wait_only 0 1000 0 (enqueue 0 1000 init)
    (Relation.ReflTransGen.tail Relation.ReflTransGen.refl (Step.submit init))
  exact (h.2.2 ⟨0, 0⟩ (by decide) (by decide)).2.1

/-- C5: admission always takes the head of the pending queue, and the
admission history `started` is strictly `lexLT`-sorted: start order is
non-decreasing in submission timestamp, and among equal timestamps it
follows creation (insertion) order. -/
theorem fifo_admission (MC MQ RT : Nat) (s : SchedState)
    (h : Reach MC MQ RT s) :
    s.started.Pairwise lexLT ∧
    s.started.Pairwise (fun a b => a.timestamp ≤ b.timestamp) ∧
    (∀ r rest, s.queue = r :: rest → s.processing < MC →
      (processQueue MC s).started = s.started ++ [r] ∧
      (processQueue MC s).queue = rest ∧
      (processQueue MC s).running = s.running ++ [r.id]) := by
  have hinv := reach_inv h
  refine ⟨hinv.started_sorted, ?_, ?_⟩
  · refine hinv.started_sorted.imp ?_
    intro a b hab
    rcases hab with hab | ⟨hab, _⟩
    · exact Nat.le_of_lt hab
    · exact Nat.le_of_eq hab
  · intro r rest hq hp
    obtain ⟨queue, processing, running, started, settled, tasks, nextId, clock⟩ := s
    dsimp only at hq hp
    subst hq
    unfold processQueue
    dsimp only
    rw [if_neg (Nat.not_le.mpr hp)]
    exact ⟨rfl, rfl, rfl⟩

/-- Trace for the C5 scenario: `MAX_CONCURRENT = 1`, submissions at
`t = 0, 1, 2` (one clock tick between them), then completions. -/
def fifoS1 : SchedState := enqueue 1 1000 init

def fifoS2 : SchedState := { fifoS1 with clock := fifoS1.clock + 1 }

def fifoS3 : SchedState := enqueue 1 1000 fifoS2

def fifoS4 : SchedState := { fifoS3 with clock := fifoS3.clock + 1 }

def fifoS5 : SchedState := enqueue 1 1000 fifoS4

def fifoS6 : SchedState := complete 0 true fifoS5

def fifoS7 : SchedState := runTask 1 fifoS6

def fifoS8 : SchedState := complete 1 true fifoS7

def fifoS9 : SchedState := runTask 1 fifoS8

theorem fifoS9_reach : Reach 1 1000 30000 fifoS9 := by
  refine Relation.ReflTransGen.tail ?_ (Step.task fifoS8 (by decide))
  refine Relation.ReflTransGen.tail ?_ (Step.finish 1 true fifoS7 (by decide))
  refine Relation.ReflTransGen.tail ?_ (Step.task fifoS6 (by decide))
  refine Relation.ReflTransGen.tail ?_ (Step.finish 0 true fifoS5 (by decide))
  refine Relation.ReflTransGen.tail ?_ (Step.submit fifoS4)
  refine Relation.ReflTransGen.tail ?_ (Step.tick 1 fifoS3)
  refine Relation.ReflTransGen.tail ?_ (Step.submit fifoS2)
  refine Relation.ReflTransGen.tail ?_ (Step.tick 1 fifoS1)
  exact Relation.ReflTransGen.tail Relation.ReflTransGen.refl (Step.submit init)

/-- Concrete instantiation of `fifo_admission`: three operations submitted
at `t = 0, 1, 2` with `MAX_CONCURRENT = 1` start in exactly that order. -/
theorem fifo_admission_witness :
    fifoS9.started = [⟨0, 0⟩, ⟨1, 1⟩, ⟨2, 2⟩] ∧
    fifoS9.started.Pairwise lexLT :=
  ⟨by decide, (fifo_admission 1 1000 30000 fifoS9 fifoS9_reach).1⟩

/-- C6 counterexample: the snapshot returned by `getQueueStatus` exposes
the in-flight count under the key `processing`; it has no field named
`inFlight`, contrary to the claim's field list. -/
theorem status_fields_counterexample :
    (getQueueStatus init).map Prod.fst ≠
      ["queueSize", "inFlight", "maxConcurrent", "maxQueueSize"] := by
  decide

/-- C6 (amended): `getQueueStatus` returns a snapshot with exactly the
fields `queueSize`, `processing`, `maxConcurrent`, `maxQueueSize` — the
in-flight count is exposed under the key `processing` — whose values are
the current pending-queue length, the current in-flight counter, and the
configured limits; as a pure function of the state it mutates nothing. -/
theorem status_snapshot (s : SchedState) :
    getQueueStatus s =
      [("queueSize", s.queue.length), ("processing", s.processing),
       ("maxConcurrent", 3), ("maxQueueSize", 1000)] ∧
    (getQueueStatus s).map Prod.fst =
      ["queueSize", "processing", "maxConcurrent", "maxQueueSize"] :=
  ⟨rfl, rfl⟩

/-- C7: `enqueue`'s sorted insertion places the new request exactly before
the first queued entry with a strictly greater timestamp (appending when
none exists) — equivalently, after the longest prefix of entries with
timestamp at most the new one — and consequently every reachable queue is
sorted by ascending timestamp. -/
theorem insertion_keeps_queue_sorted (MC MQ RT : Nat) (s : SchedState)
    (h : Reach MC MQ RT s) :
    (∀ (r : Request) (l : List Request),
      insertByTimestamp r l =
        l.takeWhile (fun q => decide (q.timestamp ≤ r.timestamp)) ++
          r :: l.dropWhile (fun q => decide (q.timestamp ≤ r.timestamp))) ∧
    s.queue.Pairwise (fun a b => a.timestamp ≤ b.timestamp) := by
  constructor
  · intro r l
    induction l with
    | nil => simp [insertByTimestamp]
    | cons q qs ih =>
      by_cases hq : r.timestamp < q.timestamp
      · have hnle : ¬ q.timestamp ≤ r.timestamp := Nat.not_le.mpr hq
        simp [insertByTimestamp, hq, List.takeWhile_cons, List.dropWhile_cons, hnle]
      · have hle : q.timestamp ≤ r.timestamp := Nat.le_of_not_lt hq
        simp [insertByTimestamp, hq, List.takeWhile_cons, List.dropWhile_cons, hle, ih]
  · refine (reach_inv h).queue_sorted.imp ?_
    intro a b hab
    rcases hab with hab | ⟨hab, _⟩
    · exact Nat.le_of_lt hab
    · exact Nat.le_of_eq hab

theorem fourSubmits_reach : Reach 3 1000 30000 fourSubmits :=
  Relation.ReflTransGen.tail
    (Relation.ReflTransGen.tail
      (Relation.ReflTransGen.tail
        (Relation.ReflTransGen.tail Relation.ReflTransGen.refl
          (Step.submit init))
        (Step.submit _))
      (Step.submit _))
    (Step.submit _)

/-- Concrete instantiation of `insertion_keeps_queue_sorted`: an insertion
with a timestamp tying an existing entry lands right after the tie, and a
concrete reachable queue is sorted. -/
theorem insertion_keeps_queue_sorted_witness :
    insertByTimestamp ⟨5, 1⟩ [⟨0, 0⟩, ⟨1, 1⟩, ⟨2, 2⟩] =
      ([⟨0, 0⟩, ⟨1, 1⟩, ⟨2, 2⟩] : List Request).takeWhile
          (fun q => decide (q.timestamp ≤ 1)) ++
        ⟨5, 1⟩ :: ([⟨0, 0⟩, ⟨1, 1⟩, ⟨2, 2⟩] : List Request).dropWhile
          (fun q => decide (q.timestamp ≤ 1)) ∧
    fourSubmits.queue.Pairwise (fun a b => a.timestamp ≤ b.timestamp) := by
  have h := insertion_keeps_queue_sorted 3 1000 30000 fourSubmits fourSubmits_reach
  exact ⟨h.1 ⟨5, 1⟩ [⟨0, 0⟩, ⟨1, 1⟩, ⟨2, 2⟩], h.2⟩

/-- One clock tick (advance of `Date.now()` by one millisecond). -/
def tick1 (s : SchedState) : SchedState := { s with clock := s.clock + 1 }

/-- C8 trace: a clean-start burst of ten submissions (timestamps
`0, 1, ..., 9`) with `MAX_CONCURRENT = 3` and `MAX_QUEUE_SIZE = 5`. -/
def c8s0 : SchedState := enqueue 3 5 init

def c8s1 : SchedState := enqueue 3 5 (tick1 c8s0)

def c8s2 : SchedState := enqueue 3 5 (tick1 c8s1)

def c8s3 : SchedState := enqueue 3 5 (tick1 c8s2)

def c8s4 : SchedState := enqueue 3 5 (tick1 c8s3)

def c8s5 : SchedState := enqueue 3 5 (tick1 c8s4)

def c8s6 : SchedState := enqueue 3 5 (tick1 c8s5)

def c8s7 : SchedState := enqueue 3 5 (tick1 c8s6)

def c8s8 : SchedState := enqueue 3 5 (tick1 c8s7)

def c8s9 : SchedState := enqueue 3 5 (tick1 c8s8)

/-- C8 trace, drain phase: the near-instant operations complete and the
scheduled `processQueue` macrotasks admit the remaining queue. -/
def c8d1 : SchedState := runTask 3 (complete 0 true c8s9)

def c8d2 : SchedState := runTask 3 (complete 1 true c8d1)

def c8d3 : SchedState := runTask 3 (complete 2 true c8d2)

def c8d4 : SchedState := runTask 3 (complete 5 true c8d3)

def c8d5 : SchedState := runTask 3 (complete 6 true c8d4)

def c8final : SchedState := complete 9 true (complete 8 true (complete 7 true c8d5))

theorem c8final_reach : Reach 3 5 30000 c8final := by
  refine Relation.ReflTransGen.tail ?_
    (Step.finish 9 true (complete 8 true (complete 7 true c8d5)) (by decide))
  refine Relation.ReflTransGen.tail ?_
    (Step.finish 8 true (complete 7 true c8d5) (by decide))
  refine Relation.ReflTransGen.tail ?_ (Step.finish 7 true c8d5 (by decide))
  refine Relation.ReflTransGen.tail ?_ (Step.task (complete 6 true c8d4) (by decide))
  refine Relation.ReflTransGen.tail ?_ (Step.finish 6 true c8d4 (by decide))
  refine Relation.ReflTransGen.tail ?_ (Step.task (complete 5 true c8d3) (by decide))
  refine Relation.ReflTransGen.tail ?_ (Step.finish 5 true c8d3 (by decide))
  refine Relation.ReflTransGen.tail ?_ (Step.task (complete 2 true c8d2) (by decide))
  refine Relation.ReflTransGen.tail ?_ (Step.finish 2 true c8d2 (by decide))
  refine Relation.ReflTransGen.tail ?_ (Step.task (complete 1 true c8d1) (by decide))
  refine Relation.ReflTransGen.tail ?_ (Step.finish 1 true c8d1 (by decide))
  refine Relation.ReflTransGen.tail ?_ (Step.task (complete 0 true c8s9) (by decide))
  refine Relation.ReflTransGen.tail ?_ (Step.finish 0 true c8s9 (by decide))
  refine Relation.ReflTransGen.tail ?_ (Step.submit (tick1 c8s8))
  refine Relation.ReflTransGen.tail ?_ (Step.tick 1 c8s8)
  refine Relation.ReflTransGen.tail ?_ (Step.submit (tick1 c8s7))
  refine Relation.ReflTransGen.tail ?_ (Step.tick 1 c8s7)
  refine Relation.ReflTransGen.tail ?_ (Step.submit (tick1 c8s6))
  refine Relation.ReflTransGen.tail ?_ (Step.tick 1 c8s6)
  refine Relation.ReflTransGen.tail ?_ (Step.submit (tick1 c8s5))
  refine Relation.ReflTransGen.tail ?_ (Step.tick 1 c8s5)
  refine Relation.ReflTransGen.tail ?_ (Step.submit (tick1 c8s4))
  refine Relation.ReflTransGen.tail ?_ (Step.tick 1 c8s4)
  refine Relation.ReflTransGen.tail ?_ (Step.submit (tick1 c8s3))
  refine Relation.ReflTransGen.tail ?_ (Step.tick 1 c8s3)
  refine Relation.ReflTransGen.tail ?_ (Step.submit (tick1 c8s2))
  refine Relation.ReflTransGen.tail ?_ (Step.tick 1 c8s2)
  refine Relation.ReflTransGen.tail ?_ (Step.submit (tick1 c8s1))
  refine Relation.ReflTransGen.tail ?_ (Step.tick 1 c8s1)
  refine Relation.ReflTransGen.tail ?_ (Step.submit (tick1 c8s0))
  refine Relation.ReflTransGen.tail ?_ (Step.tick 1 c8s0)
  exact Relation.ReflTransGen.tail Relation.ReflTransGen.refl (Step.submit init)

/-- C8 counterexample: in the clean-start burst of ten near-instant
successful submissions with `MAX_QUEUE_SIZE = 5` (and the source's
`MAX_CONCURRENT = 3`), the queue-overflow failures hit exactly the 4th and
5th submissions (ids 3 and 4) — two of them, not five, and not the
earliest five: the first three submissions were admitted immediately and
succeed. -/
theorem burst_overflow_counterexample :
    Reach 3 5 30000 c8final ∧
    (c8final.settled.filter (fun p => decide (p.2 = Outcome.overflow))).map
      Prod.fst = [3, 4] ∧
    (c8final.settled.filter (fun p => decide (p.2 = Outcome.overflow))).map
      Prod.fst ≠ [0, 1, 2, 3, 4] ∧
    (c8final.settled.filter
      (fun p => decide (p.2 = Outcome.overflow))).length ≠ 5 :=
  ⟨c8final_reach, by decide, by decide, by decide⟩

/-- C8 (amended): submitting 10 near-instant successful operations from a
clean start with `MAX_QUEUE_SIZE = 5` and `MAX_CONCURRENT = 3` yields
exactly two queue-overflow failures, for the 4th and 5th submissions (the
two oldest entries still pending when the queue saturates); the remaining
eight operations succeed and the scheduler drains completely. -/
theorem burst_overflow_amended :
    Reach 3 5 30000 c8final ∧
    (c8final.settled.filter (fun p => decide (p.2 = Outcome.overflow))).map
      Prod.fst = [3, 4] ∧
    (c8final.settled.filter (fun p => decide (p.2 = Outcome.success))).map
      Prod.fst = [0, 1, 2, 5, 6, 7, 8, 9] ∧
    c8final.queue = [] ∧ c8final.running = [] ∧ c8final.nextId = 10 :=
  ⟨c8final_reach, by decide, by decide, by decide, by decide, by decide⟩

/-- Backend error object as inspected by the source: the `code` and
`message` fields of a Supabase/Postgrest error. -/
structure SbError where
  code : Option String
  message : Option String
deriving DecidableEq, Repr

/-- Fulfilment value of a `select` query as destructured by
`checkIfLiked` (supabase.ts line 395): `{ data, error, count }`.  Rows are
abstracted to their ids. -/
structure QueryResult where
  data : Option (List Nat)
  error : Option SbError
  count : Option Nat
deriving DecidableEq, Repr

/-- Outcome of awaiting the backend query: the promise rejects (taken by
the `catch` of supabase.ts line 412) or fulfils with a result object. -/
inductive FetchOutcome
  | throws
  | returns (r : QueryResult)
deriving DecidableEq, Repr

/-- The expression `count ?? data?.length ?? 0` of supabase.ts line 411. -/
def effectiveCount (r : QueryResult) : Nat :=
  match r.count with
  | some c => c
  | none =>
    match r.data with
    | some d => d.length
    | none => 0

/-- `checkIfLiked` (supabase.ts lines 392-419) as a function of the
backend's response: `false` on a returned error or a thrown exception,
otherwise whether `count ?? data?.length ?? 0` is positive. -/
def checkIfLiked (o : FetchOutcome) : Bool :=
  match o with
  | FetchOutcome.throws => false
  | FetchOutcome.returns r =>
    if r.error.isSome then false
    else decide (0 < effectiveCount r)

/-- Prefix test on character lists (for the JS `String.includes`). -/
def charsPre : List Char → List Char → Bool
  | [], _ => true
  | _ :: _, [] => false
  | a :: as, b :: bs => a == b && charsPre as bs

/-- Substring test on character lists (the JS `String.includes`). -/
def charsSub (needle : List Char) : List Char → Bool
  | [] => charsPre needle []
  | b :: bs => charsPre needle (b :: bs) || charsSub needle bs

def dupCode : String := "23505"

def dupWord : String := "duplicate"

/-- `message.includes('duplicate')`. -/
def includesDuplicate (m : String) : Bool :=
  charsSub dupWord.toList m.toList

/-- Duplicate-key test of supabase.ts line 212:
`error.code === '23505' || error.message?.includes('duplicate')`. -/
def isDuplicateError (e : SbError) : Bool :=
  e.code == some dupCode ||
    (match e.message with
     | some m => includesDuplicate m
     | none => false)

/-- Outcome of awaiting `supabase.rpc('add_like', ...)`: rejection (goes
to the retry `catch`) or fulfilment with an `error` field (checked for
duplicates); fulfilment without error means the like row was inserted. -/
inductive RpcOutcome
  | throws (e : SbError)
  | returns (error : Option SbError)
deriving DecidableEq, Repr

/-- Outcome of the follow-up `.single()` fetch of the updated item
(supabase.ts lines 219-227): either the updated row, or a failure (a
returned `fetchError`, which the source throws, or a rejected await). -/
inductive SingleOutcome
  | ok (item : Nat)
  | fail (e : SbError)
deriving DecidableEq, Repr

/-- Environment of one `_internalLikeContentItem` call: the backend's
response to the pre-check, and to each retry iteration's double-check,
`add_like` RPC and follow-up fetch. -/
structure LikeEnv where
  preCheck : FetchOutcome
  doubleCheck : Nat → FetchOutcome
  rpc : Nat → RpcOutcome
  fetchItem : Nat → SingleOutcome

/-- Body of one iteration of the retry loop (supabase.ts lines 198-229).
The second component records whether the `add_like` RPC succeeded, i.e.
whether this attempt inserted a like row. -/
def likeAttempt (env : LikeEnv) (i : Nat) : Except SbError (Option Nat) × Bool :=
  if checkIfLiked (env.doubleCheck i) then (Except.ok none, false)
  else
    match env.rpc i with
    | RpcOutcome.throws e => (Except.error e, false)
    | RpcOutcome.returns (some e) =>
      if isDuplicateError e then (Except.ok none, false)
      else (Except.error e, false)
    | RpcOutcome.returns none =>
      match env.fetchItem i with
      | SingleOutcome.fail e => (Except.error e, true)
      | SingleOutcome.ok item => (Except.ok (some item), true)

def maxRetries : Nat := 3

/-- The `while (retryCount < maxRetries)` loop of supabase.ts lines
197-238, at iteration `i` with `fuel = maxRetries - i` iterations left:
a failed attempt increments the retry count and rethrows once it reaches
`maxRetries`.  The second component records whether any attempt inserted
a like row.  (The `fuel = 0` arm is the loop's unreachable fall-through,
which in the source resolves with `undefined`.) -/
def likeLoop (env : LikeEnv) : Nat → Nat → Except SbError (Option Nat) × Bool
  | _, 0 => (Except.ok none, false)
  | i, fuel + 1 =>
    match likeAttempt env i with
    | (Except.ok v, ins) => (Except.ok v, ins)
    | (Except.error e, ins) =>
      if fuel = 0 then (Except.error e, ins)
      else
        let next := likeLoop env (i + 1) fuel
        (next.1, ins || next.2)

/-- `_internalLikeContentItem` (supabase.ts lines 185-242): pre-check,
then up to `maxRetries` attempts. -/
def _internalLikeContentItem (env : LikeEnv) : Except SbError (Option Nat) × Bool :=
  if checkIfLiked env.preCheck then (Except.ok none, false)
  else likeLoop env 0 maxRetries

/-- `likeContentItem` (supabase.ts lines 245-247) submits
`_internalLikeContentItem` to the request queue, whose `processQueue`
settles the caller's promise with exactly the operation's result
(`complete`); its outcome is the operation's. -/
def likeContentItem (env : LikeEnv) : Except SbError (Option Nat) × Bool :=
  _internalLikeContentItem env

theorem likeLoop_doubleCheck_liked (env : LikeEnv) (i fuel : Nat)
    (h : checkIfLiked (env.doubleCheck i) = true) :
    likeLoop env i (fuel + 1) = (Except.ok none, false) := by
  simp [likeLoop, likeAttempt, h]

theorem likeLoop_duplicate (env : LikeEnv) (i fuel : Nat)
    (h1 : checkIfLiked (env.doubleCheck i) = false) (e : SbError)
    (h2 : env.rpc i = RpcOutcome.returns (some e))
    (h3 : isDuplicateError e = true) :
    likeLoop env i (fuel + 1) = (Except.ok none, false) := by
  simp [likeLoop, likeAttempt, h1, h2, h3]

/-- C9 counterexample environment: the user has not liked the item; the
first attempt's double-check is negative, its `add_like` succeeds
(inserting a like) but the follow-up fetch fails; the retry's double-check
then reports the item liked. -/
def c9env : LikeEnv :=
  { preCheck := FetchOutcome.returns ⟨some [], none, some 0⟩,
    doubleCheck := fun i =>
      if i = 0 then FetchOutcome.returns ⟨some [], none, some 0⟩
      else FetchOutcome.returns ⟨some [7], none, some 1⟩,
    rpc := fun _ => RpcOutcome.returns none,
    fetchItem := fun _ => SingleOutcome.fail ⟨none, none⟩ }

/-- C9 counterexample: an execution in which a double-check read reports
the item liked and `likeContentItem` resolves with null — yet a new like
row was inserted by this very call (its first attempt's `add_like`
succeeded before the follow-up fetch failed), contradicting the claim's
"no new like is inserted". -/
theorem like_already_liked_counterexample :
    checkIfLiked (c9env.doubleCheck 1) = true ∧
    likeContentItem c9env = (Except.ok none, true) :=
  ⟨rfl, rfl⟩

/-- C9 (amended): whenever the pre-check reports the item liked, or an
attempt's double-check reports it liked, or an attempt's `add_like`
returns a duplicate-key error (code `23505` or a message containing
`duplicate`), the call resolves with null rather than failing, and no
like is inserted from that point on; in particular when this happens at
the pre-check or at the first attempt, the call inserts no like at all. -/
theorem like_already_liked_resolves_null (env : LikeEnv) :
    (checkIfLiked env.preCheck = true →
      likeContentItem env = (Except.ok none, false)) ∧
    (∀ i fuel, checkIfLiked (env.doubleCheck i) = true →
      likeLoop env i (fuel + 1) = (Except.ok none, false)) ∧
    (∀ i fuel e, checkIfLiked (env.doubleCheck i) = false →
      env.rpc i = RpcOutcome.returns (some e) → isDuplicateError e = true →
      likeLoop env i (fuel + 1) = (Except.ok none, false)) ∧
    (checkIfLiked env.preCheck = false →
      checkIfLiked (env.doubleCheck 0) = true →
      likeContentItem env = (Except.ok none, false)) ∧
    (∀ e, checkIfLiked env.preCheck = false →
      checkIfLiked (env.doubleCheck 0) = false →
      env.rpc 0 = RpcOutcome.returns (some e) → isDuplicateError e = true →
      likeContentItem env = (Except.ok none, false)) := by
  refine ⟨?_, ?_, ?_, ?_, ?_⟩
  · intro h
    unfold likeContentItem _internalLikeContentItem
    rw [if_pos h]
  · exact fun i fuel h => likeLoop_doubleCheck_liked env i fuel h
  · exact fun i fuel e h1 h2 h3 => likeLoop_duplicate env i fuel h1 e h2 h3
  · intro h0 h1
    unfold likeContentItem _internalLikeContentItem
    rw [if_neg (by simp [h0])]
    exact likeLoop_doubleCheck_liked env 0 2 h1
  · intro e h0 h1 h2 h3
    unfold likeContentItem _internalLikeContentItem
    rw [if_neg (by simp [h0])]
    exact likeLoop_duplicate env 0 2 h1 e h2 h3

/-- Environment in which the pre-check already reports the item liked. -/
def likedEnv : LikeEnv :=
  { preCheck := FetchOutcome.returns ⟨some [7], none, some 1⟩,
    doubleCheck := fun _ => FetchOutcome.returns ⟨some [7], none, some 1⟩,
    rpc := fun _ => RpcOutcome.returns none,
    fetchItem := fun _ => SingleOutcome.ok 7 }

/-- Concrete instantiation of `like_already_liked_resolves_null`: with the
pre-check reporting the item liked, the call resolves with null and
inserts nothing. -/
theorem like_already_liked_resolves_null_witness :
    checkIfLiked likedEnv.preCheck = true ∧
    likeContentItem likedEnv = (Except.ok none, false) :=
  ⟨rfl, (like_already_liked_resolves_null likedEnv).1 rfl⟩

/-- C10: `checkIfLiked` never rejects — it is a total Boolean function of
the backend's response: a thrown exception or a returned error yields
`false`, and otherwise it returns `true` exactly when the reported count
(or, absent a count, the returned row count, defaulting to zero) is
positive. -/
theorem checkIfLiked_never_rejects (o : FetchOutcome) :
    (o = FetchOutcome.throws → checkIfLiked o = false) ∧
    (∀ r, o = FetchOutcome.returns r → r.error.isSome = true →
      checkIfLiked o = false) ∧
    (∀ r, o = FetchOutcome.returns r → r.error = none →
      (checkIfLiked o = true ↔ 0 < effectiveCount r)) := by
  refine ⟨?_, ?_, ?_⟩
  · intro h
    subst h
    rfl
  · intro r h he
    subst h
    simp [checkIfLiked, he]
  · intro r h he
    subst h
    simp [checkIfLiked, he]

/-- Concrete instantiation of `checkIfLiked_never_rejects`: an exception
yields `false`, and an error-free response with count 1 yields `true`. -/
theorem checkIfLiked_never_rejects_witness :
    checkIfLiked FetchOutcome.throws = false ∧
    (checkIfLiked (FetchOutcome.returns ⟨some [7], none, some 1⟩) = true ↔
      0 < effectiveCount ⟨some [7], none, some 1⟩) :=
  ⟨(checkIfLiked_never_rejects FetchOutcome.throws).1 rfl,
    (checkIfLiked_never_rejects
      (FetchOutcome.returns ⟨some [7], none, some 1⟩)).2.2 _ rfl rfl⟩

end SimpleBoard
